import Mathlib

/-!
Shallow embedding of the action-interpreter core of the ParadigmsWorkShop
repository, covering the two interpreter variants found in the source:

- `Tagged` embeds src/Tasks/Day1/3.1-execute.ts: actions are plain tagged
  data (`read`, `match`, `log`, `noop`) interpreted by the central
  dispatcher `Exec.executeAction`.
- `Steps` embeds src/Tasks/Day1/3-execute.ts: every instruction is a
  subclass of the abstract `Step` class (`ReadStep`, `MatchStep`,
  `EffectStep`) with its own `execute` method, chained via `setNext`.

Modelling conventions, shared by both variants:

- JavaScript values that flow to the logger or appear in match criteria are
  modelled by the inductive `Value` (numbers, strings, and `undefined`);
  `undefined` is what `user[key]` yields in JS for a key that is not a
  field of the user object.
- The mutable execution context (`context.env.user` plus the stream of
  logger invocations) is the structure `Ctx`: `user` is the current-user
  slot, `logs` is the ordered list of values the logger has been invoked
  with so far.  Invoking the logger appends one element to `logs`.
- A thrown JS `Error` aborts the run but leaves already-performed side
  effects in place, so the result type `Outcome` has a `raised` case that
  carries, besides the message, the context at the moment of the throw.
- The external `reader` collaborator is a parameter `reader : Int → User`
  (its `ReadParams` argument is the single integer field `id`).
-/

namespace ParadigmsWorkShop

/-- The `User` record of both source files: `{id: number, name: string, age: number}`.
Ids and ages are modelled as integers. -/
structure User where
  id : Int
  name : String
  age : Int
deriving DecidableEq, Repr

/-- Model of the JavaScript values relevant to the interpreter: the numbers
and strings stored in `User` fields and criteria, plus `undefined`, which is
what indexing a user object with an unknown key yields. -/
inductive Value where
  | num (n : Int)
  | str (s : String)
  | undefined
deriving DecidableEq, Repr

/-- JavaScript property lookup `user[key]` on a `User` object: the three own
properties `id`, `name`, `age` yield the field values, any other key yields
`undefined`. -/
def userGet (u : User) (k : String) : Value :=
  if k = "id" then .num u.id
  else if k = "name" then .str u.name
  else if k = "age" then .num u.age
  else .undefined

/-- JavaScript `key in user` test on a `User` object: the object has exactly
the own properties `id`, `name`, `age`. -/
def userHasKey (k : String) : Bool :=
  k = "id" ∨ k = "name" ∨ k = "age"

/-- The observable execution context: `user` is `context.env.user`
(absent before the first `Read`), `logs` is the ordered sequence of values
the logger collaborator has been invoked with. -/
structure Ctx where
  user : Option User
  logs : List Value
deriving DecidableEq, Repr

/-- Result of executing an action, an action list, or a step chain:
either normal completion with the final context, or a thrown error
(`raised`) carrying the message and the context at the moment of the
throw (side effects performed before the throw persist). -/
inductive Outcome where
  | ok (c : Ctx)
  | raised (msg : String) (c : Ctx)
deriving DecidableEq, Repr

namespace Tagged

/-- Actions of src/Tasks/Day1/3.1-execute.ts.  `read` carries the
`ReadParams` id; `matchA` carries the criteria object (a key/value mapping,
modelled as an association list in object-key order) and the optional
`callback` object with its optional `onSuccess` / `onFail` slots; `log`
carries the key string; `noop` carries nothing. -/
inductive Action where
  | read (id : Int)
  | matchA (criteria : List (String × Value)) (callback : Option (Option Action × Option Action))
  | log (key : String)
  | noop

/-- The match predicate of `Exec.executeMatch`:
`Object.keys(criteria).every((key) => user[key] === criteria[key])`. -/
def matchesCrit (u : User) (criteria : List (String × Value)) : Bool :=
  criteria.all (fun kv => userGet u kv.1 == kv.2)

/-- The central dispatcher `Exec.executeAction` of 3.1-execute.ts, with the
bodies of the private methods `executeRead`, `executeMatch` and
`executeLog` inlined at their unique call sites:

- `read`: `context.env.user = reader(args)` (unconditional overwrite);
- `match`: throws `'User not found in context'` if no user; otherwise
  evaluates the criteria predicate and, if the `callback` object is
  present, executes the selected `onSuccess`/`onFail` slot when that slot
  is present;
- `log`: throws `'User not found in context'` if no user; otherwise logs
  `user[key]` when `key in user`, and the raw key string otherwise;
- `noop`: does nothing. -/
def executeAction (reader : Int → User) : Action → Ctx → Outcome
  | .read i, c => .ok ⟨some (reader i), c.logs⟩
  | .matchA crit cb, c =>
    match c.user with
    | none => .raised "User not found in context" c
    | some u =>
      match cb with
      | none => .ok c
      | some (os, of) =>
        -- `const nextAction = matches ? onSuccess : onFail; if (nextAction) ...`,
        -- with the selection if pulled outside the presence test.
        if matchesCrit u crit then
          match os with
          | none => .ok c
          | some a => executeAction reader a c
        else
          match of with
          | none => .ok c
          | some a => executeAction reader a c
  | .log key, c =>
    match c.user with
    | none => .raised "User not found in context" c
    | some u =>
      if userHasKey key then
        .ok ⟨some u, c.logs ++ [userGet u key]⟩
      else
        .ok ⟨some u, c.logs ++ [Value.str key]⟩
  | .noop, c => .ok c
termination_by a => sizeOf a
decreasing_by
  all_goals simp <;> omega

/-- The loop of `Exec.executeActions`: execute the actions in list order;
a thrown error aborts the remaining sequence. -/
def executeActions (reader : Int → User) : List Action → Ctx → Outcome
  | [], c => .ok c
  | a :: rest, c =>
    match executeAction reader a c with
    | .ok c2 => executeActions reader rest c2
    | .raised msg c2 => .raised msg c2

/-- The public `Exec.run` of 3.1-execute.ts: create a fresh context with an
empty environment and execute the action list. -/
def run (reader : Int → User) (actions : List Action) : Outcome :=
  executeActions reader actions ⟨none, []⟩

/-- Action has no `read` anywhere in it, the match callbacks included.
Used to delimit exactly which actions can modify `context.env.user`. -/
def noRead : Action → Bool
  | .read _ => false
  | .matchA _ none => true
  | .matchA _ (some (os, of)) =>
    (match os with
     | none => true
     | some a => noRead a) &&
    (match of with
     | none => true
     | some a => noRead a)
  | .log _ => true
  | .noop => true
termination_by a => sizeOf a
decreasing_by
  all_goals simp <;> omega

/-- Fuel-indexed copy of `executeAction`: identical dispatch, but each
recursive descent into a match callback consumes one unit of fuel, and the
interpreter answers `none` when the fuel is exhausted.  Together with
`Action` being a finite tree, the adequacy theorem for this function states
the termination of the dispatcher. -/
def executeActionFuel (reader : Int → User) : Nat → Action → Ctx → Option Outcome
  | 0, _, _ => none
  | _ + 1, .read i, c => some (.ok ⟨some (reader i), c.logs⟩)
  | fuel + 1, .matchA crit cb, c =>
    match c.user with
    | none => some (.raised "User not found in context" c)
    | some u =>
      match cb with
      | none => some (.ok c)
      | some (os, of) =>
        if matchesCrit u crit then
          match os with
          | none => some (.ok c)
          | some a => executeActionFuel reader fuel a c
        else
          match of with
          | none => some (.ok c)
          | some a => executeActionFuel reader fuel a c
  | _ + 1, .log key, c =>
    match c.user with
    | none => some (.raised "User not found in context" c)
    | some u =>
      if userHasKey key then
        some (.ok ⟨some u, c.logs ++ [userGet u key]⟩)
      else
        some (.ok ⟨some u, c.logs ++ [Value.str key]⟩)
  | _ + 1, .noop, c => some (.ok c)

/-- Fuel-indexed copy of the `executeActions` loop: each list element is
executed with the given per-action fuel budget. -/
def executeActionsFuel (reader : Int → User) (fuel : Nat) : List Action → Ctx → Option Outcome
  | [], c => some (.ok c)
  | a :: rest, c =>
    match executeActionFuel reader fuel a c with
    | none => none
    | some (.ok c2) => executeActionsFuel reader fuel rest c2
    | some (.raised msg c2) => some (.raised msg c2)

end Tagged

namespace Steps

/-- The `keyof User` type: `Effect.log` in 3-execute.ts is statically
restricted to the three field names of `User`. -/
inductive UserKey where
  | id
  | name
  | age
deriving DecidableEq, Repr

/-- The string a `keyof User` value denotes. -/
def keyStr : UserKey → String
  | .id => "id"
  | .name => "name"
  | .age => "age"

/-- The step classes of src/Tasks/Day1/3-execute.ts.  Every subclass of the
abstract `Step` class carries the `nextStep` reference (set with `setNext`,
`none` when never set) together with its constructor arguments:

- `readStep` holds `ReadParams` (the id);
- `matchStep` holds `MatchCriteria` (only a `name` string in this file) and
  the mandatory `successStep` / `failStep` steps;
- `effectStep` holds the `Effect` object with its optional `log` key
  (statically a `keyof User`) and optional `noop` flag. -/
inductive Step where
  | readStep (params : Int) (next : Option Step)
  | matchStep (criteria : String) (successStep failStep : Step) (next : Option Step)
  | effectStep (log : Option UserKey) (noop : Option Bool) (next : Option Step)

/-- The `execute` methods of the three `Step` subclasses:

- `ReadStep.execute`: stores `reader(params)` into `context.env.user`, then
  executes `nextStep` when one was set;
- `MatchStep.execute`: throws `'User not found in context'` if no user;
  otherwise compares `user.name === criteria.name` and executes the success
  or fail step (its own `nextStep` is never consulted);
- `EffectStep.execute`: when the effect has a `log` key and a user is
  present, invokes the logger with `user[key]`; otherwise does nothing (its
  own `nextStep` is never consulted, and there is no user check). -/
def execute (reader : Int → User) : Step → Ctx → Outcome
  | .readStep params next, c =>
    match next with
    | none => .ok ⟨some (reader params), c.logs⟩
    | some s => execute reader s ⟨some (reader params), c.logs⟩
  | .matchStep criteria s f _, c =>
    match c.user with
    | none => .raised "User not found in context" c
    | some u =>
      if u.name == criteria then execute reader s c else execute reader f c
  | .effectStep lg _ _, c =>
    match lg, c.user with
    | some key, some u => .ok ⟨some u, c.logs ++ [userGet u (keyStr key)]⟩
    | _, _ => .ok c
termination_by s => sizeOf s
decreasing_by
  all_goals simp <;> omega

/-- The public `Exec.run` of 3-execute.ts: create a fresh context with an
empty environment and execute the head step of the chain. -/
def run (reader : Int → User) (steps : Step) : Outcome :=
  execute reader steps ⟨none, []⟩

end Steps

/-- Branch trees expressible in both interpreter variants: a leaf effect
(log of a schema field, or noop) or a name-criteria match carrying both
branches.  `MatchStep` requires both branches and only a name criterion,
and `Effect.log` only admits schema fields, so this is exactly the shape
of match/effect trees the subclass variant can express. -/
inductive BTree where
  | logK (key : Steps.UserKey)
  | noopT
  | matchT (name : String) (onSuccess onFail : BTree)
deriving DecidableEq, Repr

/-- Reading of a branch tree as a step of the subclass variant. -/
def BTree.toStep : BTree → Steps.Step
  | .logK k => .effectStep (some k) none none
  | .noopT => .effectStep none (some true) none
  | .matchT n s f => .matchStep n s.toStep f.toStep none

/-- Reading of a branch tree as an action of the tagged variant. -/
def BTree.toAction : BTree → Tagged.Action
  | .logK k => .log (Steps.keyStr k)
  | .noopT => .noop
  | .matchT n s f => .matchA [("name", .str n)] (some (some s.toAction, some f.toAction))

/-- Programs expressible in both variants as whole runs: one or more reads
(the subclass variant continues its `setNext` chain only after a
`ReadStep`), optionally followed by one terminal branch tree. -/
structure Prog where
  firstId : Int
  restIds : List Int
  tail : Option BTree
deriving DecidableEq, Repr

/-- Continuation of a program after its first read, as a `setNext` chain of
the subclass variant. -/
def progChain : List Int → Option BTree → Option Steps.Step
  | [], none => none
  | [], some t => some t.toStep
  | i :: rest, t => some (.readStep i (progChain rest t))

/-- Reading of a program as a head step of the subclass variant. -/
def Prog.toStep (p : Prog) : Steps.Step :=
  .readStep p.firstId (progChain p.restIds p.tail)

/-- Optional terminal branch tree of a program, as a (possibly empty)
action list of the tagged variant. -/
def tailActions : Option BTree → List Tagged.Action
  | none => []
  | some t => [t.toAction]

/-- Reading of a program as an action list of the tagged variant. -/
def Prog.toActions (p : Prog) : List Tagged.Action :=
  (p.firstId :: p.restIds).map Tagged.Action.read ++ tailActions p.tail

/-- Execution of the continuation of a program after a read, in the
subclass variant: an unset `nextStep` ends the run normally. -/
def executeChain (reader : Int → User) (next : Option Steps.Step) (c : Ctx) : Outcome :=
  match next with
  | none => .ok c
  | some s => Steps.execute reader s c

/-- The example reader of both source files:
`({ id }) => ({ id, name: 'marcus', age: 42 })`. -/
def demoReader : Int → User := fun i => ⟨i, "marcus", 42⟩

/-!
Helper lemmas, shared by the claim theorems below.
-/

theorem sizeA_pos (a : Tagged.Action) : 1 ≤ sizeOf a := by
  cases a <;> simp <;> omega

/-- Unfolding of the run loop at the empty list. -/
theorem executeActions_nil (reader : Int → User) (c : Ctx) :
    Tagged.executeActions reader [] c = .ok c := rfl

/-- Unfolding of the run loop at a successfully executed head action. -/
theorem executeActions_cons_ok (reader : Int → User) (a : Tagged.Action)
    (rest : List Tagged.Action) (c c2 : Ctx)
    (h : Tagged.executeAction reader a c = .ok c2) :
    Tagged.executeActions reader (a :: rest) c = Tagged.executeActions reader rest c2 := by
  rw [Tagged.executeActions, h]

/-- Unfolding of the run loop at a head action that throws. -/
theorem executeActions_cons_raised (reader : Int → User) (a : Tagged.Action)
    (rest : List Tagged.Action) (c : Ctx) (msg : String) (c2 : Ctx)
    (h : Tagged.executeAction reader a c = .raised msg c2) :
    Tagged.executeActions reader (a :: rest) c = .raised msg c2 := by
  rw [Tagged.executeActions, h]

/-- Unfolding of `EffectStep.execute` at an empty context: the user guard
fails, so nothing happens. -/
theorem execute_effect_empty (reader : Int → User) (lg : Option Steps.UserKey)
    (np : Option Bool) (nx : Option Steps.Step) (ls : List Value) :
    Steps.execute reader (.effectStep lg np nx) ⟨none, ls⟩ = .ok ⟨none, ls⟩ := by
  cases lg <;> simp [Steps.execute]

/-- Unfolding of the dispatcher at a Match with a present callback and a
populated context: exactly the selected slot is executed when present. -/
theorem executeAction_matchA_present (reader : Int → User) (crit : List (String × Value))
    (os of : Option Tagged.Action) (u : User) (ls : List Value) :
    Tagged.executeAction reader (.matchA crit (some (os, of))) ⟨some u, ls⟩ =
      match (if Tagged.matchesCrit u crit then os else of) with
      | none => .ok ⟨some u, ls⟩
      | some a => Tagged.executeAction reader a ⟨some u, ls⟩ := by
  by_cases hm : Tagged.matchesCrit u crit
  · cases os <;> simp [Tagged.executeAction, hm]
  · cases of <;> simp [Tagged.executeAction, hm]

/-- Adequacy of the fuel-indexed dispatcher: with fuel at least the size of
the action tree, it computes exactly what `executeAction` computes. -/
theorem executeActionFuel_adequate (reader : Int → User) :
    ∀ (fuel : Nat) (a : Tagged.Action) (c : Ctx), sizeOf a ≤ fuel →
      Tagged.executeActionFuel reader fuel a c = some (Tagged.executeAction reader a c) := by
  intro fuel
  induction fuel with
  | zero =>
    intro a c h
    exact absurd h (by have := sizeA_pos a; omega)
  | succ n ih =>
    intro a c h
    cases a with
    | read i => simp [Tagged.executeActionFuel, Tagged.executeAction]
    | noop => simp [Tagged.executeActionFuel, Tagged.executeAction]
    | log key =>
      cases hu : c.user with
      | none => simp [Tagged.executeActionFuel, Tagged.executeAction, hu]
      | some u =>
        simp only [Tagged.executeActionFuel, Tagged.executeAction, hu]
        split <;> rfl
    | matchA crit cb =>
      cases hu : c.user with
      | none => simp [Tagged.executeActionFuel, Tagged.executeAction, hu]
      | some u =>
        match cb with
        | none => simp [Tagged.executeActionFuel, Tagged.executeAction, hu]
        | some (os, of) =>
          simp only [Tagged.executeActionFuel, Tagged.executeAction, hu]
          by_cases hm : Tagged.matchesCrit u crit
          · simp only [hm, if_true]
            cases os with
            | none => rfl
            | some a2 =>
              apply ih
              have : sizeOf a2 + 1 ≤ sizeOf (Tagged.Action.matchA crit (some (some a2, of))) := by
                simp; omega
              omega
          · simp only [hm, if_false]
            cases of with
            | none => rfl
            | some a2 =>
              apply ih
              have : sizeOf a2 + 1 ≤ sizeOf (Tagged.Action.matchA crit (some (os, some a2))) := by
                simp; omega
              omega

/-- Adequacy of the fuel-indexed run loop: with a per-action fuel budget
at least the size of every action in the list, it computes exactly what
`executeActions` computes. -/
theorem executeActionsFuel_adequate (reader : Int → User) (fuel : Nat) :
    ∀ (acts : List Tagged.Action) (c : Ctx), (∀ b ∈ acts, sizeOf b ≤ fuel) →
      Tagged.executeActionsFuel reader fuel acts c =
        some (Tagged.executeActions reader acts c) := by
  intro acts
  induction acts with
  | nil =>
    intro c h
    simp [Tagged.executeActionsFuel, Tagged.executeActions]
  | cons b rest ih =>
    intro c h
    have hb := executeActionFuel_adequate reader fuel b c (h b (List.mem_cons_self b rest))
    cases he : Tagged.executeAction reader b c with
    | ok c2 =>
      rw [he] at hb
      simp only [Tagged.executeActionsFuel, Tagged.executeActions, hb, he]
      exact ih c2 (fun x hx => h x (List.mem_cons_of_mem b hx))
    | raised m c2 =>
      rw [he] at hb
      simp only [Tagged.executeActionsFuel, Tagged.executeActions, hb, he]

/-- Executing an action containing no `read` never changes the
current-user slot (fuel-indexed form, proved by induction on the fuel). -/
theorem executeActionFuel_noRead_user (reader : Int → User) :
    ∀ (fuel : Nat) (a : Tagged.Action) (c c2 : Ctx),
      Tagged.noRead a = true →
      Tagged.executeActionFuel reader fuel a c = some (.ok c2) → c2.user = c.user := by
  intro fuel
  induction fuel with
  | zero => intro a c c2 _ he; simp [Tagged.executeActionFuel] at he
  | succ n ih =>
    intro a c c2 hn he
    cases a with
    | read i => simp [Tagged.noRead] at hn
    | noop =>
      simp [Tagged.executeActionFuel] at he
      all_goals simp_all
    | log key =>
      cases hu : c.user with
      | none => simp [Tagged.executeActionFuel, hu] at he
      | some u =>
        simp only [Tagged.executeActionFuel, hu] at he
        split at he <;> (simp at he; rw [← he])
    | matchA crit cb =>
      cases hu : c.user with
      | none => simp [Tagged.executeActionFuel, hu] at he
      | some u =>
        match cb with
        | none =>
          simp [Tagged.executeActionFuel, hu] at he
          all_goals simp_all
        | some (os, of) =>
          simp only [Tagged.executeActionFuel, hu] at he
          by_cases hm : Tagged.matchesCrit u crit
          · simp only [hm, if_true] at he
            cases os with
            | none => simp at he; simp_all
            | some a2 =>
              have hn2 : Tagged.noRead a2 = true := by
                rw [Tagged.noRead.eq_def] at hn
                simp [Bool.and_eq_true] at hn
                exact hn.1
              exact (ih a2 c c2 hn2 he).trans hu
          · simp only [hm, if_false] at he
            cases of with
            | none => simp at he; simp_all
            | some a2 =>
              have hn2 : Tagged.noRead a2 = true := by
                rw [Tagged.noRead.eq_def] at hn
                simp [Bool.and_eq_true] at hn
                exact hn.2
              exact (ih a2 c c2 hn2 he).trans hu

/-- Transfer of the frame property to the dispatcher itself. -/
theorem executeAction_noRead_user (reader : Int → User) (a : Tagged.Action) (c c2 : Ctx)
    (hn : Tagged.noRead a = true) (he : Tagged.executeAction reader a c = .ok c2) :
    c2.user = c.user := by
  have hA := executeActionFuel_adequate reader (sizeOf a) a c (le_refl _)
  rw [he] at hA
  exact executeActionFuel_noRead_user reader (sizeOf a) a c c2 hn hA

/-- Branch trees execute identically in both variants once a user is in
the context. -/
theorem btree_exec_eq (reader : Int → User) :
    ∀ (t : BTree) (u : User) (ls : List Value),
      Steps.execute reader t.toStep ⟨some u, ls⟩ =
        Tagged.executeAction reader t.toAction ⟨some u, ls⟩ := by
  intro t
  induction t with
  | logK k =>
    intro u ls
    cases k <;>
      simp [BTree.toStep, BTree.toAction, Steps.execute, Tagged.executeAction, Steps.keyStr,
        userHasKey, userGet]
  | noopT =>
    intro u ls
    simp [BTree.toStep, BTree.toAction, Steps.execute, Tagged.executeAction]
  | matchT n s f ihs ihf =>
    intro u ls
    by_cases h : u.name = n
    · have hm : Tagged.matchesCrit u [("name", .str n)] = true := by
        simp [Tagged.matchesCrit, userGet, h]
      simp [BTree.toStep, BTree.toAction, Steps.execute, Tagged.executeAction, hm, h, ihs]
    · have hm : Tagged.matchesCrit u [("name", .str n)] = false := by
        simp [Tagged.matchesCrit, userGet, h]
      simp [BTree.toStep, BTree.toAction, Steps.execute, Tagged.executeAction, hm, h, ihf]

/-- Unfolding of `ReadStep.execute`: store the read user, then run the
`setNext` continuation. -/
theorem steps_execute_read (reader : Int → User) (i : Int) (next : Option Steps.Step) (c : Ctx) :
    Steps.execute reader (.readStep i next) c =
      executeChain reader next ⟨some (reader i), c.logs⟩ := by
  cases next <;> simp [Steps.execute, executeChain]

/-- Continuations of a program after its first read execute identically in
both variants, from any populated context. -/
theorem chain_exec_eq (reader : Int → User) :
    ∀ (ids : List Int) (t : Option BTree) (u : User) (ls : List Value),
      executeChain reader (progChain ids t) ⟨some u, ls⟩ =
        Tagged.executeActions reader (ids.map Tagged.Action.read ++ tailActions t) ⟨some u, ls⟩ := by
  intro ids
  induction ids with
  | nil =>
    intro t u ls
    match t with
    | none => simp [executeChain, progChain, tailActions, Tagged.executeActions]
    | some bt =>
      simp only [executeChain, progChain, tailActions, List.map_nil, List.nil_append]
      rw [btree_exec_eq reader bt u ls]
      simp only [Tagged.executeActions]
      cases Tagged.executeAction reader bt.toAction ⟨some u, ls⟩ <;>
        simp [Tagged.executeActions]
  | cons i rest ih =>
    intro t u ls
    simp only [progChain, executeChain, List.map_cons, List.cons_append,
      Tagged.executeActions, Tagged.executeAction]
    rw [steps_execute_read]
    exact ih t (reader i) ls

/-- Whole-program equivalence of the two variants on the commonly
expressible programs. -/
theorem prog_run_eq (reader : Int → User) (p : Prog) :
    Steps.run reader p.toStep = Tagged.run reader p.toActions := by
  rcases p with ⟨firstId, restIds, tail⟩
  simp only [Steps.run, Tagged.run, Prog.toStep, Prog.toActions,
    List.map_cons, List.cons_append, Tagged.executeActions, Tagged.executeAction]
  rw [steps_execute_read]
  exact chain_exec_eq reader restIds tail (reader firstId) []

/-!
Claim theorems.
-/

/-- C1: running the action list
`[Read{id:15}, Match{criteria:{name:"marcus"}, onSuccess:Log{key:"age"}, onFail:Noop}]`
through `Exec.run`, with a reader such that `reader(15) = {id:15, name:"marcus", age:42}`,
invokes the logger exactly once, with the value `42` (and ends with that
user in the context). -/
theorem claim1_end_to_end_scenario (reader : Int → User)
    (h : reader 15 = ⟨15, "marcus", 42⟩) :
    Tagged.run reader
      [.read 15,
       .matchA [("name", .str "marcus")] (some (some (.log "age"), some .noop))] =
      .ok ⟨some ⟨15, "marcus", 42⟩, [.num 42]⟩ := by
  have hm : Tagged.matchesCrit ⟨15, "marcus", 42⟩ [("name", .str "marcus")] = true := by
    decide
  have hk : userHasKey "age" = true := by decide
  have hg : userGet ⟨15, "marcus", 42⟩ "age" = .num 42 := by decide
  have h1 : Tagged.executeAction reader (.read 15) ⟨none, []⟩ =
      .ok ⟨some ⟨15, "marcus", 42⟩, []⟩ := by
    rw [Tagged.executeAction, h]
  have h3 : Tagged.executeAction reader (.log "age") ⟨some ⟨15, "marcus", 42⟩, []⟩ =
      .ok ⟨some ⟨15, "marcus", 42⟩, [.num 42]⟩ := by
    rw [Tagged.executeAction]
    simp only [hk, if_true, hg]
    rfl
  have h2 : Tagged.executeAction reader
      (.matchA [("name", .str "marcus")] (some (some (.log "age"), some .noop)))
      ⟨some ⟨15, "marcus", 42⟩, []⟩ = .ok ⟨some ⟨15, "marcus", 42⟩, [.num 42]⟩ := by
    rw [Tagged.executeAction]
    simp only [hm, if_true]
    exact h3
  rw [Tagged.run, executeActions_cons_ok reader _ _ _ _ h1,
    executeActions_cons_ok reader _ _ _ _ h2, executeActions_nil]

/-- Witness for C1 at the example reader of the source file. -/
theorem claim1_end_to_end_scenario_witness :
    Tagged.run demoReader
      [.read 15,
       .matchA [("name", .str "marcus")] (some (some (.log "age"), some .noop))] =
      .ok ⟨some ⟨15, "marcus", 42⟩, [.num 42]⟩ :=
  claim1_end_to_end_scenario demoReader rfl

/-- C2: the match predicate is a pure function of the user and the
criteria; it is true exactly when every criteria key maps to a value
identical to the user's value at that key, and the empty criteria mapping
matches every user. -/
theorem claim2_match_predicate (criteria : List (String × Value)) (u : User) :
    (Tagged.matchesCrit u criteria = true ↔ ∀ kv ∈ criteria, userGet u kv.1 = kv.2) ∧
      Tagged.matchesCrit u [] = true := by
  constructor
  · simp [Tagged.matchesCrit, List.all_eq_true]
  · simp [Tagged.matchesCrit]

/-- Witness for C2 at the demo user and name criteria. -/
theorem claim2_match_predicate_witness :
    (Tagged.matchesCrit ⟨15, "marcus", 42⟩ [("name", .str "marcus")] = true ↔
        ∀ kv ∈ [("name", Value.str "marcus")], userGet ⟨15, "marcus", 42⟩ kv.1 = kv.2) ∧
      Tagged.matchesCrit ⟨15, "marcus", 42⟩ [] = true :=
  claim2_match_predicate [("name", .str "marcus")] ⟨15, "marcus", 42⟩

/-- C6: a Read stores the user returned by `reader(params)` into the
context unconditionally, overwriting whatever was there, in both variants;
in the subclass variant the chain continues from exactly that context. -/
theorem claim6_read_unconditional (reader : Int → User) (i : Int) (c : Ctx) :
    Tagged.executeAction reader (.read i) c = .ok ⟨some (reader i), c.logs⟩ ∧
      Steps.execute reader (.readStep i none) c = .ok ⟨some (reader i), c.logs⟩ ∧
      ∀ s, Steps.execute reader (.readStep i (some s)) c =
        Steps.execute reader s ⟨some (reader i), c.logs⟩ := by
  refine ⟨by simp [Tagged.executeAction], by simp [Steps.execute],
    fun s => by simp [Steps.execute]⟩

/-- C7: with a populated context, `Log{key}` with a schema key invokes the
logger exactly once with the user's value at that key; with any other key
it invokes the logger exactly once with the key string itself. -/
theorem claim7_log (reader : Int → User) (u : User) (ls : List Value) (key : String) :
    (key = "id" ∨ key = "name" ∨ key = "age" →
      Tagged.executeAction reader (.log key) ⟨some u, ls⟩ =
        .ok ⟨some u, ls ++ [userGet u key]⟩) ∧
    (¬(key = "id" ∨ key = "name" ∨ key = "age") →
      Tagged.executeAction reader (.log key) ⟨some u, ls⟩ =
        .ok ⟨some u, ls ++ [.str key]⟩) := by
  constructor <;> intro h
  · have hk : userHasKey key = true := by simp [userHasKey]; tauto
    simp [Tagged.executeAction, hk]
  · have hk : userHasKey key = false := by simp [userHasKey]; tauto
    simp [Tagged.executeAction, hk]

/-- Witness for C7 at the schema key `age` and the unrecognized key
`unknownField`. -/
theorem claim7_log_witness :
    Tagged.executeAction demoReader (.log "age") ⟨some ⟨15, "marcus", 42⟩, []⟩ =
        .ok ⟨some ⟨15, "marcus", 42⟩, [] ++ [userGet ⟨15, "marcus", 42⟩ "age"]⟩ ∧
      Tagged.executeAction demoReader (.log "unknownField") ⟨some ⟨15, "marcus", 42⟩, []⟩ =
        .ok ⟨some ⟨15, "marcus", 42⟩, [] ++ [.str "unknownField"]⟩ :=
  ⟨(claim7_log demoReader ⟨15, "marcus", 42⟩ [] "age").1 (by simp),
   (claim7_log demoReader ⟨15, "marcus", 42⟩ [] "unknownField").2 (by simp)⟩

/-- C8: a Match against a populated context executes exactly the nested
action in the slot selected by the match outcome when that slot is
present, and nothing otherwise, in both variants (in the subclass variant
both branches are mandatory and exactly one executes). -/
theorem claim8_match_single_branch (reader : Int → User) (crit : List (String × Value))
    (os of : Option Tagged.Action) (u : User) (ls : List Value) (n : String)
    (s f : Steps.Step) (nx : Option Steps.Step) :
    (Tagged.executeAction reader (.matchA crit (some (os, of))) ⟨some u, ls⟩ =
        match (if Tagged.matchesCrit u crit then os else of) with
        | none => .ok ⟨some u, ls⟩
        | some a => Tagged.executeAction reader a ⟨some u, ls⟩) ∧
    (Tagged.executeAction reader (.matchA crit none) ⟨some u, ls⟩ = .ok ⟨some u, ls⟩) ∧
    (Steps.execute reader (.matchStep n s f nx) ⟨some u, ls⟩ =
        if u.name == n then Steps.execute reader s ⟨some u, ls⟩
        else Steps.execute reader f ⟨some u, ls⟩) := by
  exact ⟨executeAction_matchA_present reader crit os of u ls,
    by simp [Tagged.executeAction], by simp [Steps.execute]⟩

/-- C9: a criteria mapping containing a key outside the user schema bound
to a defined (non-`undefined`) value never matches any user: `user[key]`
is `undefined` for such a key and cannot equal a defined value. -/
theorem claim9_alien_key_never_matches (u : User) (crit : List (String × Value))
    (k : String) (v : Value) (hmem : (k, v) ∈ crit)
    (hk : ¬(k = "id" ∨ k = "name" ∨ k = "age")) (hv : v ≠ .undefined) :
    Tagged.matchesCrit u crit = false := by
  by_contra hAll
  rw [Bool.not_eq_false] at hAll
  simp only [Tagged.matchesCrit, List.all_eq_true, beq_iff_eq] at hAll
  have h2 := hAll (k, v) hmem
  push_neg at hk
  rw [userGet, if_neg hk.1, if_neg hk.2.1, if_neg hk.2.2] at h2
  exact hv h2.symm

/-- Witness for C9 at the criteria `{city: "x"}` and the demo user. -/
theorem claim9_alien_key_never_matches_witness :
    Tagged.matchesCrit ⟨15, "marcus", 42⟩ [("city", Value.str "x")] = false :=
  claim9_alien_key_never_matches ⟨15, "marcus", 42⟩ [("city", Value.str "x")] "city"
    (Value.str "x") (by simp) (by simp) (by simp)

/-- C3 counterexample: in the subclass variant, an `EffectStep` with a log
key executed with no user in the context does not raise
`MissingUserError` — the run completes normally (and logs nothing) —
contradicting the claim that a Log executed without a prior Read raises in
both interpreter variants. -/
theorem claim3_counterexample :
    Steps.run demoReader (.effectStep (some .age) none none) = .ok ⟨none, []⟩ := by
  rw [Steps.run]
  exact execute_effect_empty demoReader (some .age) none none []

/-- C3 amended: in the tagged-data variant, executing Match or Log with an
empty context raises `'User not found in context'` and invokes no logger;
in the subclass variant this holds for Match, while an Effect step with an
empty context neither raises nor logs — it completes as a no-op. -/
theorem claim3_missing_user (reader : Int → User) (ls : List Value) :
    (∀ crit cb, Tagged.executeAction reader (.matchA crit cb) ⟨none, ls⟩ =
        .raised "User not found in context" ⟨none, ls⟩) ∧
    (∀ key, Tagged.executeAction reader (.log key) ⟨none, ls⟩ =
        .raised "User not found in context" ⟨none, ls⟩) ∧
    (∀ n s f nx, Steps.execute reader (.matchStep n s f nx) ⟨none, ls⟩ =
        .raised "User not found in context" ⟨none, ls⟩) ∧
    (∀ lg np nx, Steps.execute reader (.effectStep lg np nx) ⟨none, ls⟩ =
        .ok ⟨none, ls⟩) := by
  refine ⟨fun crit cb => by simp [Tagged.executeAction],
    fun key => by simp [Tagged.executeAction],
    fun n s f nx => by simp [Steps.execute],
    fun lg np nx => ?_⟩
  cases lg <;> simp [Steps.execute]

/-- C4 counterexample: a Match whose selected callback is a Read changes
`context.currentUser`: starting from user `{id:15}`, executing
`Match{criteria:{}, onSuccess:Read{id:1}}` replaces the current user with
`reader(1)`, which differs from the starting user. -/
theorem claim4_counterexample :
    Tagged.executeAction demoReader (.matchA [] (some (some (.read 1), none)))
        ⟨some ⟨15, "marcus", 42⟩, []⟩ = .ok ⟨some ⟨1, "marcus", 42⟩, []⟩ ∧
      some (⟨1, "marcus", 42⟩ : User) ≠ some (⟨15, "marcus", 42⟩ : User) := by
  constructor
  · have hm : Tagged.matchesCrit ⟨15, "marcus", 42⟩ [] = true := by decide
    rw [executeAction_matchA_present]
    simp only [hm, if_true]
    rw [Tagged.executeAction]
    rfl
  · simp

/-- C4 amended: a Read sets the context to the user the reader returned
(overwriting any previous value); Log and Noop never change the
current-user slot; and a Match leaves the current-user slot unchanged
provided the action tree it dispatches contains no Read — more generally,
executing any action containing no Read preserves the slot. -/
theorem claim4_frame (reader : Int → User) :
    (∀ i c, Tagged.executeAction reader (.read i) c = .ok ⟨some (reader i), c.logs⟩) ∧
    (∀ key c c2, Tagged.executeAction reader (.log key) c = .ok c2 → c2.user = c.user) ∧
    (∀ c, Tagged.executeAction reader .noop c = .ok c) ∧
    (∀ a c c2, Tagged.noRead a = true → Tagged.executeAction reader a c = .ok c2 →
        c2.user = c.user) := by
  refine ⟨fun i c => by simp [Tagged.executeAction], ?_,
    fun c => by simp [Tagged.executeAction], ?_⟩
  · intro key c c2 he
    exact executeAction_noRead_user reader (.log key) c c2 (by simp [Tagged.noRead.eq_def]) he
  · intro a c c2 hn he
    exact executeAction_noRead_user reader a c c2 hn he

/-- Witness for C4 at a concrete Log action on the demo user. -/
theorem claim4_frame_witness :
    (Ctx.mk (some ⟨15, "marcus", 42⟩) [Value.num 42]).user =
      (Ctx.mk (some ⟨15, "marcus", 42⟩) []).user :=
  (claim4_frame demoReader).2.2.2 (.log "age") ⟨some ⟨15, "marcus", 42⟩, []⟩
    ⟨some ⟨15, "marcus", 42⟩, [Value.num 42]⟩ (by simp [Tagged.noRead.eq_def])
    (by rw [Tagged.executeAction]
        simp only [show userHasKey "age" = true from by decide, if_true,
          show userGet ⟨15, "marcus", 42⟩ "age" = .num 42 from by decide]
        rfl)

/-- C5 counterexample: the one-instruction program "Log the age field",
expressible in both variants (`EffectStep{log:'age'}` and
`[{type:'log', args:'age'}]`), run with the same reader from the same fresh
context, completes normally in the subclass variant but raises in the
tagged variant: the two instruction models are not equivalent on every
commonly expressible program. -/
theorem claim5_counterexample :
    Steps.run demoReader (.effectStep (some .name) none none) = .ok ⟨none, []⟩ ∧
      Tagged.run demoReader [.log "name"] =
        .raised "User not found in context" ⟨none, []⟩ ∧
      Outcome.ok (⟨none, []⟩ : Ctx) ≠
        Outcome.raised "User not found in context" ⟨none, []⟩ := by
  have hl : Tagged.executeAction demoReader (.log "name") ⟨none, []⟩ =
      .raised "User not found in context" ⟨none, []⟩ := by
    rw [Tagged.executeAction]
  refine ⟨by rw [Steps.run]; exact execute_effect_empty demoReader (some .name) none none [],
    ?_, by simp⟩
  rw [Tagged.run]
  exact executeActions_cons_raised demoReader _ _ _ _ _ hl

/-- C5 amended: the two instruction models agree (same logger invocations,
same final context, same error behavior) on every program expressible as a
whole run in both variants in which the top-level chain can actually
proceed: one or more Reads followed by at most one terminal match/effect
tree — the subclass variant continues its `setNext` chain only after a
`ReadStep`, its `MatchStep` requires both branches and a name-only
criterion, and its `Effect.log` admits only schema keys, so these are
exactly the commonly expressible whole-run programs on which the variants
coincide; outside this fragment they diverge (see the counterexample). -/
theorem claim5_equivalence (reader : Int → User) (p : Prog) :
    Steps.run reader p.toStep = Tagged.run reader p.toActions :=
  prog_run_eq reader p

/-- C10: the dispatcher terminates on every finite action tree and the run
loop terminates on every finite action list: the fuel-indexed interpreter,
which charges one unit of fuel per recursive dispatch into a match
callback, already succeeds with fuel bounded by the size of the action
tree, and agrees with the interpreter everywhere. -/
theorem claim10_terminates (reader : Int → User) (fuel : Nat)
    (a : Tagged.Action) (acts : List Tagged.Action) (c : Ctx)
    (ha : sizeOf a ≤ fuel) (hacts : ∀ b ∈ acts, sizeOf b ≤ fuel) :
    Tagged.executeActionFuel reader fuel a c = some (Tagged.executeAction reader a c) ∧
      Tagged.executeActionsFuel reader fuel acts c =
        some (Tagged.executeActions reader acts c) :=
  ⟨executeActionFuel_adequate reader fuel a c ha,
   executeActionsFuel_adequate reader fuel acts c hacts⟩

/-- Witness for C10 at a concrete match tree and action list. -/
theorem claim10_terminates_witness :
    Tagged.executeActionFuel demoReader 20
        (.matchA [] (some (some .noop, some (.read 3)))) ⟨none, []⟩ =
      some (Tagged.executeAction demoReader
        (.matchA [] (some (some .noop, some (.read 3)))) ⟨none, []⟩) ∧
      Tagged.executeActionsFuel demoReader 20 [.read 3, .noop] ⟨none, []⟩ =
        some (Tagged.executeActions demoReader [.read 3, .noop] ⟨none, []⟩) :=
  claim10_terminates demoReader 20 (.matchA [] (some (some .noop, some (.read 3))))
    [.read 3, .noop] ⟨none, []⟩ (by decide)
    (by intro b hb; simp at hb; rcases hb with rfl | rfl <;> decide)

end ParadigmsWorkShop
